import Mathlib

/-!
Verification of the HPTT tensor-transposition library (src/src/hptt.h).

The repository ships only the header: the classes `ComputeNode`, `Plan` and
`Transpose` with their inline members (constructors, getters/setters, the
blocking constants and the `HPTT_ERROR_INFO` macro) are embedded directly
from the source.  The bodies of `Transpose::execute`, `fuseIndices` and
`verifyParameter` are not part of the sources; where a claim depends on
them they are modelled from the specification (each such definition carries
a doc comment starting with "Modelled from the spec:").

Tensors are modelled as flat memories `Nat → Int` (exact integer elements
stand in for the floating-point element types; the algorithms perform no
reductions, so every element is produced by the single expression
`alpha * A[i] + beta * B0[j]` and exact equality models bitwise equality).
Multi-indices are functions `Nat → Nat`, read only below the rank.
-/

namespace Hptt

/-- Shift a coordinate-indexed function by one axis (drop axis 0). -/
def shf {α : Type} (f : Nat → α) : Nat → α := fun k => f (k + 1)

/-- Product of the first `d` radices: `S 0 * S 1 * ⋯ * S (d-1)`.
For outer sizes this is the number of elements in the padded block, and
`prodUpTo S k` is the leading dimension (stride) of axis `k`. -/
def prodUpTo : (Nat → Nat) → Nat → Nat
  | _, 0 => 1
  | S, d + 1 => S 0 * prodUpTo (shf S) d

/-- Mixed-radix encoding: the flat offset of multi-index `j` with radices `S`,
`Σ_{k<d} j k * (S 0 * ⋯ * S (k-1))`.  With the outer sizes as radices this is
exactly the memory offset `Σ j k * ld k` of the data model. -/
def encodeMR : (Nat → Nat) → Nat → (Nat → Nat) → Nat
  | _, 0, _ => 0
  | S, d + 1, j => j 0 + S 0 * encodeMR (shf S) d (shf j)

/-- Mixed-radix decoding: coordinate `k` of flat index `t` with radices `S`. -/
def decodeMR : (Nat → Nat) → Nat → Nat → Nat
  | S, t, 0 => t % S 0
  | S, t, k + 1 => decodeMR (shf S) (t / S 0) k

/-- Point update of a flat memory. -/
def write (M : Nat → Int) (x : Nat) (v : Int) : Nat → Int :=
  fun y => if y = x then v else M y

theorem decodeMR_lt (S : Nat → Nat) (t k : Nat) (h : 0 < S k) :
    decodeMR S t k < S k := by
  induction k generalizing S t with
  | zero => exact Nat.mod_lt _ h
  | succ k ih => exact ih (shf S) (t / S 0) h

theorem encodeMR_congr (S : Nat → Nat) (d : Nat) (j j' : Nat → Nat)
    (h : ∀ k, k < d → j k = j' k) : encodeMR S d j = encodeMR S d j' := by
  induction d generalizing S j j' with
  | zero => rfl
  | succ d ih =>
    show j 0 + S 0 * encodeMR (shf S) d (shf j)
        = j' 0 + S 0 * encodeMR (shf S) d (shf j')
    rw [h 0 (Nat.succ_pos d), ih (shf S) (shf j) (shf j')
      (fun k hk => h (k + 1) (by omega))]

theorem decodeMR_congr (S S' : Nat → Nat) (t k : Nat)
    (h : ∀ x, x ≤ k → S x = S' x) : decodeMR S t k = decodeMR S' t k := by
  induction k generalizing S S' t with
  | zero =>
    show t % S 0 = t % S' 0
    rw [h 0 (Nat.le_refl 0)]
  | succ k ih =>
    show decodeMR (shf S) (t / S 0) k = decodeMR (shf S') (t / S' 0) k
    rw [h 0 (by omega)]
    exact ih (shf S) (shf S') _ (fun x hx => h (x + 1) (by omega))

theorem prodUpTo_congr (S S' : Nat → Nat) (d : Nat)
    (h : ∀ k, k < d → S k = S' k) : prodUpTo S d = prodUpTo S' d := by
  induction d generalizing S S' with
  | zero => rfl
  | succ d ih =>
    show S 0 * prodUpTo (shf S) d = S' 0 * prodUpTo (shf S') d
    rw [h 0 (Nat.succ_pos d), ih (shf S) (shf S')
      (fun k hk => h (k + 1) (by omega))]

theorem shf_decodeMR (S : Nat → Nat) (t : Nat) :
    shf (decodeMR S t) = decodeMR (shf S) (t / S 0) := by
  funext k
  rfl

theorem encodeMR_decodeMR (S : Nat → Nat) (d t : Nat) (h : t < prodUpTo S d) :
    encodeMR S d (decodeMR S t) = t := by
  induction d generalizing S t with
  | zero =>
    have : t = 0 := by
      have h1 : t < 1 := h
      omega
    simp [encodeMR, this]
  | succ d ih =>
    have hS0 : 0 < S 0 := by
      rcases Nat.eq_zero_or_pos (S 0) with h0 | h0
      · exfalso
        have : prodUpTo S (d + 1) = 0 := by
          show S 0 * prodUpTo (shf S) d = 0
          rw [h0, Nat.zero_mul]
        omega
      · exact h0
    have hdiv : t / S 0 < prodUpTo (shf S) d := by
      have hlt : t < prodUpTo (shf S) d * S 0 := by
        have : prodUpTo S (d + 1) = S 0 * prodUpTo (shf S) d := rfl
        rw [this, Nat.mul_comm] at h
        exact h
      exact (Nat.div_lt_iff_lt_mul hS0).mpr hlt
    show decodeMR S t 0 + S 0 * encodeMR (shf S) d (shf (decodeMR S t)) = t
    rw [shf_decodeMR, ih (shf S) (t / S 0) hdiv]
    show t % S 0 + S 0 * (t / S 0) = t
    exact Nat.mod_add_div t (S 0)

theorem decodeMR_encodeMR (S : Nat → Nat) (d : Nat) (j : Nat → Nat)
    (h : ∀ k, k < d → j k < S k) :
    ∀ k, k < d → decodeMR S (encodeMR S d j) k = j k := by
  induction d generalizing S j with
  | zero => intro k hk; omega
  | succ d ih =>
    intro k hk
    have h0 : j 0 < S 0 := h 0 (Nat.succ_pos d)
    have hS0 : 0 < S 0 := Nat.lt_of_le_of_lt (Nat.zero_le _) h0
    have hE : encodeMR S (d + 1) j = j 0 + S 0 * encodeMR (shf S) d (shf j) := rfl
    cases k with
    | zero =>
      show encodeMR S (d + 1) j % S 0 = j 0
      rw [hE, Nat.add_mul_mod_self_left, Nat.mod_eq_of_lt h0]
    | succ k =>
      show decodeMR (shf S) (encodeMR S (d + 1) j / S 0) k = j (k + 1)
      have hq : encodeMR S (d + 1) j / S 0 = encodeMR (shf S) d (shf j) := by
        rw [hE, Nat.add_mul_div_left _ _ hS0, Nat.div_eq_of_lt h0, Nat.zero_add]
      rw [hq]
      exact ih (shf S) (shf j) (fun x hx => h (x + 1) (by omega)) k (by omega)

theorem encodeMR_lt (S : Nat → Nat) (d : Nat) (j : Nat → Nat)
    (h : ∀ k, k < d → j k < S k) : encodeMR S d j < prodUpTo S d := by
  induction d generalizing S j with
  | zero => exact Nat.zero_lt_one
  | succ d ih =>
    have h0 : j 0 < S 0 := h 0 (Nat.succ_pos d)
    have hE : encodeMR (shf S) d (shf j) < prodUpTo (shf S) d :=
      ih (shf S) (shf j) (fun x hx => h (x + 1) (by omega))
    show j 0 + S 0 * encodeMR (shf S) d (shf j) < S 0 * prodUpTo (shf S) d
    calc j 0 + S 0 * encodeMR (shf S) d (shf j)
        < S 0 + S 0 * encodeMR (shf S) d (shf j) :=
          Nat.add_lt_add_right h0 _
      _ = S 0 * (encodeMR (shf S) d (shf j) + 1) := by ring
      _ ≤ S 0 * prodUpTo (shf S) d := Nat.mul_le_mul_left _ hE

theorem encodeMR_inj (S : Nat → Nat) (d : Nat) (j j' : Nat → Nat)
    (hj : ∀ k, k < d → j k < S k) (hj' : ∀ k, k < d → j' k < S k)
    (heq : encodeMR S d j = encodeMR S d j') :
    ∀ k, k < d → j k = j' k := by
  intro k hk
  have h1 := decodeMR_encodeMR S d j hj k hk
  have h2 := decodeMR_encodeMR S d j' hj' k hk
  rw [heq] at h1
  omega

theorem prodUpTo_pos_factor (S : Nat → Nat) (d t : Nat) (h : t < prodUpTo S d) :
    ∀ k, k < d → 0 < S k := by
  induction d generalizing S t with
  | zero => intro k hk; omega
  | succ d ih =>
    intro k hk
    have hP : prodUpTo S (d + 1) = S 0 * prodUpTo (shf S) d := rfl
    have h0 : 0 < S 0 := by
      rcases Nat.eq_zero_or_pos (S 0) with hz | hp
      · exfalso; rw [hP, hz, Nat.zero_mul] at h; omega
      · exact hp
    have hrest : 0 < prodUpTo (shf S) d := by
      rcases Nat.eq_zero_or_pos (prodUpTo (shf S) d) with hz | hp
      · exfalso; rw [hP, hz, Nat.mul_zero] at h; omega
      · exact hp
    cases k with
    | zero => exact h0
    | succ k => exact ih (shf S) 0 hrest k (by omega)

/-!
## The execute semantics (modelled from the spec)

The body of `Transpose::execute` is not among the sources (src/src/hptt.h
only declares it, line 175).  It is modelled from the spec, §3 and §8:
`B[π(i)] = α·A[i] + β·B₀[π(i)]` for every index tuple `i` in A's logical
domain, over flat memories with leading dimensions that are prefix products
of the outer sizes.  Conventions (spec §3): `p` maps a B axis to the A axis
it draws from (`sizeB m = SA (p m)`), `pinv` is its inverse, axis 0 is the
fastest-varying axis of either operand.
-/

/-- Logical sizes of B derived from A's sizes and the permutation
(spec §3: `S_B[k] = S_A[π⁻¹[k]]`, with `p` the B-to-A axis map). -/
def sizeBOf (SA : Nat → Nat) (p : Nat → Nat) : Nat → Nat := fun mB => SA (p mB)

/-- Modelled from the spec: one elementary update of `Transpose::execute`.
The `t`-th point of B's logical domain (in mixed-radix order) is written
with `alpha * A[i] + beta * B0[j]`, where `j = decode t` is the B index,
`i = j ∘ pinv` the corresponding A index, and offsets are mixed-radix
encodings with the outer sizes as radices (the leading-dimension model of
spec §3). -/
def execStep (d : Nat) (SA OA OB p pinv : Nat → Nat) (alpha beta : Int)
    (MA MB0 : Nat → Int) (M : Nat → Int) (t : Nat) : Nat → Int :=
  write M (encodeMR OB d (decodeMR (sizeBOf SA p) t))
    (alpha * MA (encodeMR OA d (fun k => decodeMR (sizeBOf SA p) t (pinv k)))
      + beta * MB0 (encodeMR OB d (decodeMR (sizeBOf SA p) t)))

/-- Modelled from the spec: `Transpose::execute` (body absent from the
sources).  Every index tuple of B's logical domain is visited exactly once
and receives `alpha * A[i] + beta * B0[π(i)]` (spec §8, permutation
correctness); `B0` is the initial content of the B memory. -/
def executeMem (d : Nat) (SA OA OB p pinv : Nat → Nat) (alpha beta : Int)
    (MA MB0 : Nat → Int) : Nat → Int :=
  List.foldl (execStep d SA OA OB p pinv alpha beta MA MB0) MB0
    (List.range (prodUpTo (sizeBOf SA p) d))

theorem foldl_execStep_not_written (d : Nat) (SA OA OB p pinv : Nat → Nat)
    (alpha beta : Int) (MA MB0 : Nat → Int) (l : List Nat) (M : Nat → Int)
    (x : Nat)
    (h : ∀ t ∈ l, encodeMR OB d (decodeMR (sizeBOf SA p) t) ≠ x) :
    List.foldl (execStep d SA OA OB p pinv alpha beta MA MB0) M l x = M x := by
  induction l generalizing M with
  | nil => rfl
  | cons t0 l ih =>
    rw [List.foldl_cons]
    rw [ih _ (fun t ht => h t (List.mem_cons_of_mem t0 ht))]
    show write M _ _ x = M x
    rw [write, if_neg]
    intro hx
    exact h t0 (List.mem_cons_self t0 l) hx.symm

theorem foldl_execStep_written (d : Nat) (SA OA OB p pinv : Nat → Nat)
    (alpha beta : Int) (MA MB0 : Nat → Int) (l : List Nat) (tstar : Nat)
    (hnd : l.Nodup) (hmem : tstar ∈ l)
    (huni : ∀ t ∈ l, encodeMR OB d (decodeMR (sizeBOf SA p) t)
      = encodeMR OB d (decodeMR (sizeBOf SA p) tstar) → t = tstar)
    (M : Nat → Int) :
    List.foldl (execStep d SA OA OB p pinv alpha beta MA MB0) M l
        (encodeMR OB d (decodeMR (sizeBOf SA p) tstar))
      = alpha * MA (encodeMR OA d
            (fun k => decodeMR (sizeBOf SA p) tstar (pinv k)))
        + beta * MB0 (encodeMR OB d (decodeMR (sizeBOf SA p) tstar)) := by
  induction l generalizing M with
  | nil => exact absurd hmem (List.not_mem_nil tstar)
  | cons t0 l ih =>
    rw [List.foldl_cons]
    rcases eq_or_ne t0 tstar with heq | hne
    · subst heq
      have hnotin : t0 ∉ l := (List.nodup_cons.mp hnd).1
      rw [foldl_execStep_not_written]
      · show write M _ _ _ = _
        rw [write, if_pos rfl]
      · intro t ht hx
        have := huni t (List.mem_cons_of_mem t0 ht) hx
        exact hnotin (this ▸ ht)
    · have hmem' : tstar ∈ l := by
        rcases List.mem_cons.mp hmem with h | h
        · exact absurd h.symm hne
        · exact h
      exact ih (List.nodup_cons.mp hnd).2 hmem'
        (fun t ht hx => huni t (List.mem_cons_of_mem t0 ht) hx) _

/-- C1: for every valid input (sizes, permutation, scalars, A contents,
initial B contents) the executed result satisfies
`B[π(i)] = alpha * A[i] + beta * B0[π(i)]` for every index tuple `i` in A's
logical domain.  `p`/`pinv` are the mutually inverse B-to-A / A-to-B axis
maps, and element addresses are the mixed-radix offsets given by the outer
sizes.  In the exact-arithmetic element model the equality is exact, hence
within any ulp tolerance. -/
theorem C1_execute_permutation_correct (d : Nat) (SA OA OB p pinv : Nat → Nat)
    (alpha beta : Int) (MA MB0 : Nat → Int) (i : Nat → Nat)
    (hp : ∀ k, k < d → p k < d) (hpinv : ∀ k, k < d → pinv k < d)
    (hpi : ∀ k, k < d → p (pinv k) = k)
    (hi : ∀ k, k < d → i k < SA k)
    (hOB : ∀ mB, mB < d → sizeBOf SA p mB ≤ OB mB) :
    executeMem d SA OA OB p pinv alpha beta MA MB0
        (encodeMR OB d (fun mB => i (p mB)))
      = alpha * MA (encodeMR OA d i)
        + beta * MB0 (encodeMR OB d (fun mB => i (p mB))) := by
  have hjv : ∀ mB, mB < d → i (p mB) < sizeBOf SA p mB :=
    fun mB hmB => hi (p mB) (hp mB hmB)
  have htlt : encodeMR (sizeBOf SA p) d (fun mB => i (p mB))
      < prodUpTo (sizeBOf SA p) d := encodeMR_lt _ _ _ hjv
  have hdec : ∀ mB, mB < d →
      decodeMR (sizeBOf SA p) (encodeMR (sizeBOf SA p) d (fun mB => i (p mB))) mB
        = i (p mB) := decodeMR_encodeMR _ _ _ hjv
  have hoff : encodeMR OB d
      (decodeMR (sizeBOf SA p) (encodeMR (sizeBOf SA p) d (fun mB => i (p mB))))
        = encodeMR OB d (fun mB => i (p mB)) :=
    encodeMR_congr _ _ _ _ hdec
  have key := foldl_execStep_written d SA OA OB p pinv alpha beta MA MB0
    (List.range (prodUpTo (sizeBOf SA p) d))
    (encodeMR (sizeBOf SA p) d (fun mB => i (p mB)))
    (List.nodup_range _) (List.mem_range.mpr htlt) ?uni MB0
  case uni =>
    intro t ht hx
    have htl : t < prodUpTo (sizeBOf SA p) d := List.mem_range.mp ht
    have hpos : ∀ mB, mB < d → 0 < sizeBOf SA p mB :=
      prodUpTo_pos_factor _ _ _ htl
    have hdv : ∀ mB, mB < d → decodeMR (sizeBOf SA p) t mB < sizeBOf SA p mB :=
      fun mB hmB => decodeMR_lt _ _ _ (hpos mB hmB)
    have hdv' : ∀ mB, mB < d →
        decodeMR (sizeBOf SA p)
          (encodeMR (sizeBOf SA p) d (fun mB => i (p mB))) mB
            < sizeBOf SA p mB :=
      fun mB hmB => (hdec mB hmB) ▸ hjv mB hmB
    have heqc : ∀ mB, mB < d → decodeMR (sizeBOf SA p) t mB
        = decodeMR (sizeBOf SA p)
            (encodeMR (sizeBOf SA p) d (fun mB => i (p mB))) mB :=
      encodeMR_inj OB d _ _
        (fun mB hmB => Nat.lt_of_lt_of_le (hdv mB hmB) (hOB mB hmB))
        (fun mB hmB => Nat.lt_of_lt_of_le (hdv' mB hmB) (hOB mB hmB)) hx
    calc t = encodeMR (sizeBOf SA p) d (decodeMR (sizeBOf SA p) t) :=
          (encodeMR_decodeMR _ _ _ htl).symm
      _ = encodeMR (sizeBOf SA p) d
            (decodeMR (sizeBOf SA p)
              (encodeMR (sizeBOf SA p) d (fun mB => i (p mB)))) :=
          encodeMR_congr _ _ _ _ heqc
      _ = encodeMR (sizeBOf SA p) d (fun mB => i (p mB)) :=
          encodeMR_congr _ _ _ _ hdec
      _ = _ := rfl
  have hA : encodeMR OA d
      (fun k => decodeMR (sizeBOf SA p)
        (encodeMR (sizeBOf SA p) d (fun mB => i (p mB))) (pinv k))
        = encodeMR OA d i := by
    apply encodeMR_congr
    intro k hk
    rw [hdec (pinv k) (hpinv k hk), hpi k hk]
  rw [← hoff, ← hA]
  exact key

/-- Witness for C1 at a concrete input: `d = 2`, sizes `[3, 2]`, the swap
permutation, padded B, `alpha = 2`, `beta = 3`. -/
theorem C1_witness :
    executeMem 2 (fun k => if k = 0 then 3 else 2)
        (fun k => if k = 0 then 4 else 2) (fun k => if k = 0 then 2 else 5)
        (fun k => if k = 0 then 1 else 0) (fun k => if k = 0 then 1 else 0)
        2 3 (fun off => (off : Int) * 10) (fun _ => 7)
        (encodeMR (fun k => if k = 0 then 2 else 5) 2
          ((fun k : Nat => if k = 0 then 2 else 1) ∘
            (fun k => if k = 0 then 1 else 0)))
      = 2 * (fun off => (off : Int) * 10)
          (encodeMR (fun k => if k = 0 then 4 else 2) 2
            (fun k : Nat => if k = 0 then 2 else 1))
        + 3 * (fun _ : Nat => (7 : Int))
            (encodeMR (fun k => if k = 0 then 2 else 5) 2
              ((fun k : Nat => if k = 0 then 2 else 1) ∘
                (fun k => if k = 0 then 1 else 0))) :=
  C1_execute_permutation_correct 2 (fun k => if k = 0 then 3 else 2)
    (fun k => if k = 0 then 4 else 2) (fun k => if k = 0 then 2 else 5)
    (fun k => if k = 0 then 1 else 0) (fun k => if k = 0 then 1 else 0)
    2 3 (fun off => (off : Int) * 10) (fun _ => 7)
    (fun k => if k = 0 then 2 else 1)
    (by decide) (by decide) (by decide) (by decide) (by decide)

/-- C5: padding invariance.  A B position `jp` that lies inside the outer
(padded) region but outside the logical sizes is never written: after
execute its memory cell still holds its initial value, bitwise. -/
theorem C5_padding_invariance (d : Nat) (SA OA OB p pinv : Nat → Nat)
    (alpha beta : Int) (MA MB0 : Nat → Int) (jp : Nat → Nat)
    (hSO : ∀ mB, mB < d → sizeBOf SA p mB ≤ OB mB)
    (hjO : ∀ mB, mB < d → jp mB < OB mB)
    (hout : ∃ mB, mB < d ∧ sizeBOf SA p mB ≤ jp mB) :
    executeMem d SA OA OB p pinv alpha beta MA MB0 (encodeMR OB d jp)
      = MB0 (encodeMR OB d jp) := by
  apply foldl_execStep_not_written
  intro t ht hx
  have htl : t < prodUpTo (sizeBOf SA p) d := List.mem_range.mp ht
  have hpos : ∀ mB, mB < d → 0 < sizeBOf SA p mB :=
    prodUpTo_pos_factor _ _ _ htl
  have hdv : ∀ mB, mB < d → decodeMR (sizeBOf SA p) t mB < sizeBOf SA p mB :=
    fun mB hmB => decodeMR_lt _ _ _ (hpos mB hmB)
  have heqc : ∀ mB, mB < d → decodeMR (sizeBOf SA p) t mB = jp mB :=
    encodeMR_inj OB d _ _
      (fun mB hmB => Nat.lt_of_lt_of_le (hdv mB hmB) (hSO mB hmB)) hjO hx
  obtain ⟨mB, hmB, hge⟩ := hout
  have h1 := hdv mB hmB
  have h2 := heqc mB hmB
  omega

/-- Witness for C5 at a concrete input: `d = 1`, size 2, outer size 4,
position 2 lies in the padding and keeps its initial value 9. -/
theorem C5_witness :
    executeMem 1 (fun _ => 2) (fun _ => 2) (fun _ => 4) (fun k => k)
        (fun k => k) 5 1 (fun off => (off : Int)) (fun _ => 9)
        (encodeMR (fun _ => 4) 1 (fun _ => 2))
      = (fun _ : Nat => (9 : Int)) (encodeMR (fun _ => 4) 1 (fun _ => 2)) :=
  C5_padding_invariance 1 (fun _ => 2) (fun _ => 2) (fun _ => 4) (fun k => k)
    (fun k => k) 5 1 (fun off => (off : Int)) (fun _ => 9) (fun _ => 2)
    (by decide) (by decide) (by decide)

/-!
## Parallel execution (modelled from the spec)

Spec §4.5/§5: the iteration domain is statically partitioned into
`numTasks` disjoint contiguous blocks, worker `t` runs block `t` to
completion, and workers write disjoint B slices (no reductions, no shared
mutable state).  The model partitions B's flat logical domain into `T`
contiguous chunks of `⌈total/T⌉` indices (the last possibly shorter) and
runs the workers; since the blocks are disjoint and ordered, running them
one after another is exact.
-/

/-- Worker `t`'s block of the flat iteration domain `[0, total)` under a
block partition with chunk size `c`. -/
def chunkOf (total c t : Nat) : List Nat :=
  List.range' (t * c) (min c (total - t * c))

/-- Modelled from the spec: execution with `T` worker tasks (spec §5:
static assignment, worker `t` runs its block to completion; writes of
distinct workers are disjoint, so serializing them is faithful). -/
def executeMemPar (T d : Nat) (SA OA OB p pinv : Nat → Nat)
    (alpha beta : Int) (MA MB0 : Nat → Int) : Nat → Int :=
  List.foldl
    (fun M t => List.foldl (execStep d SA OA OB p pinv alpha beta MA MB0) M
      (chunkOf (prodUpTo (sizeBOf SA p) d)
        ((prodUpTo (sizeBOf SA p) d + T - 1) / T) t))
    MB0 (List.range T)

theorem chunk_append (n total c : Nat) :
    List.range' 0 (min (n * c) total) ++ chunkOf total c n
      = List.range' 0 (min ((n + 1) * c) total) := by
  simp only [chunkOf]
  rw [Nat.succ_mul]
  generalize n * c = q
  rcases Nat.le_total total q with h | h
  · have h1 : min q total = total := Nat.min_eq_right h
    have h2 : total - q = 0 := Nat.sub_eq_zero_of_le h
    have h3 : min (q + c) total = total := Nat.min_eq_right (by omega)
    rw [h1, h2, h3, Nat.min_zero, List.range'_zero, List.append_nil]
  · have h1 : min q total = q := Nat.min_eq_left h
    rw [h1]
    have happ := List.range'_append 0 q (min c (total - q)) 1
    simp only [Nat.one_mul, Nat.zero_add] at happ
    rw [happ]
    congr 1
    rcases Nat.le_total c (total - q) with hc | hc
    · rw [Nat.min_eq_left hc, Nat.min_eq_left (by omega)]
      omega
    · rw [Nat.min_eq_right hc, Nat.min_eq_right (by omega)]
      omega

theorem foldl_chunks (f : (Nat → Int) → Nat → (Nat → Int)) (total c : Nat) :
    ∀ (n : Nat) (M : Nat → Int),
      List.foldl (fun M t => List.foldl f M (chunkOf total c t)) M
          (List.range n)
        = List.foldl f M (List.range' 0 (min (n * c) total)) := by
  intro n
  induction n with
  | zero =>
    intro M
    simp [List.range'_zero]
  | succ n ih =>
    intro M
    rw [List.range_succ, List.foldl_append, ih]
    show List.foldl f (List.foldl f M (List.range' 0 (min (n * c) total)))
        (chunkOf total c n) = _
    rw [← List.foldl_append, chunk_append]

theorem total_le_mul_ceil (total T : Nat) (hT : 0 < T) :
    total ≤ T * ((total + T - 1) / T) := by
  have hdm := Nat.div_add_mod (total + T - 1) T
  have hm : (total + T - 1) % T < T := Nat.mod_lt _ hT
  generalize hx : T * ((total + T - 1) / T) = x at hdm ⊢
  generalize hr : (total + T - 1) % T = r at hdm hm
  omega

theorem executeMemPar_eq (T d : Nat) (SA OA OB p pinv : Nat → Nat)
    (alpha beta : Int) (MA MB0 : Nat → Int) (hT : 0 < T) :
    executeMemPar T d SA OA OB p pinv alpha beta MA MB0
      = executeMem d SA OA OB p pinv alpha beta MA MB0 := by
  have hceil := total_le_mul_ceil (prodUpTo (sizeBOf SA p) d) T hT
  show List.foldl _ MB0 (List.range T) = _
  rw [foldl_chunks, Nat.min_eq_right hceil, ← List.range_eq_range']
  rfl

/-- C4: the executed result is the same — bitwise, element for element —
for any two positive worker counts: the partition into `T` blocks always
covers B's logical domain exactly once and every element is produced by
the same arithmetic expression, with no reductions. -/
theorem C4_thread_count_invariance (T1 T2 d : Nat)
    (SA OA OB p pinv : Nat → Nat) (alpha beta : Int) (MA MB0 : Nat → Int)
    (h1 : 0 < T1) (h2 : 0 < T2) :
    executeMemPar T1 d SA OA OB p pinv alpha beta MA MB0
      = executeMemPar T2 d SA OA OB p pinv alpha beta MA MB0 := by
  rw [executeMemPar_eq T1 d SA OA OB p pinv alpha beta MA MB0 h1,
    executeMemPar_eq T2 d SA OA OB p pinv alpha beta MA MB0 h2]

/-- Witness for C4 at a concrete input: 2 workers versus 3 workers on a
2-D transposition. -/
theorem C4_witness :
    executeMemPar 2 2 (fun k => if k = 0 then 3 else 2)
        (fun k => if k = 0 then 3 else 2) (fun k => if k = 0 then 2 else 3)
        (fun k => if k = 0 then 1 else 0) (fun k => if k = 0 then 1 else 0)
        1 0 (fun off => (off : Int)) (fun _ => 0)
      = executeMemPar 3 2 (fun k => if k = 0 then 3 else 2)
        (fun k => if k = 0 then 3 else 2) (fun k => if k = 0 then 2 else 3)
        (fun k => if k = 0 then 1 else 0) (fun k => if k = 0 then 1 else 0)
        1 0 (fun off => (off : Int)) (fun _ => 0) :=
  C4_thread_count_invariance 2 3 2 (fun k => if k = 0 then 3 else 2)
    (fun k => if k = 0 then 3 else 2) (fun k => if k = 0 then 2 else 3)
    (fun k => if k = 0 then 1 else 0) (fun k => if k = 0 then 1 else 0)
    1 0 (fun off => (off : Int)) (fun _ => 0) (by decide) (by decide)

/-!
## Index fusion (modelled from the spec)

Spec §4.2 / §3: `fuseIndices` (whose body is absent from the sources,
declared at src/src/hptt.h:183) coalesces an adjacent pair of
consecutively-permuted axes that carries no padding: B positions
`m, m+1` with `p (m+1) = p m + 1`, no padding on A axis `p m`
(`OA (p m) = SA (p m)`) and none on B axis `m` (`OB m = SB m`).  The
merged axis has the product size, and memory is untouched — fusion is a
pure reindexing of the same flat buffers.
-/

/-- Radix vector after merging axes `m` and `m+1` into one axis of the
product size (axes above shift down by one). -/
def mergeAt (m : Nat) (S : Nat → Nat) : Nat → Nat :=
  fun k => if k < m then S k else if k = m then S m * S (m + 1) else S (k + 1)

/-- New index of an old axis after the pair at `a, a+1` merged: axes above
the pair shift down by one. -/
def adjDown (a x : Nat) : Nat := if x ≤ a then x else x - 1

/-- Old axis represented by new index `mB` after the pair at `m, m+1`
merged (the merged axis keeps index `m`). -/
def expandAt (m mB : Nat) : Nat := if mB ≤ m then mB else mB + 1

/-- B-to-A axis map of the fused descriptor: old positions/axes above the
fused pair shift down by one. -/
def fusedPerm (m a : Nat) (p : Nat → Nat) : Nat → Nat :=
  fun mB => adjDown a (p (expandAt m mB))

/-- A-to-B axis map of the fused descriptor (inverse of `fusedPerm`). -/
def fusedPermInv (m a : Nat) (pinv : Nat → Nat) : Nat → Nat :=
  fun k => adjDown m (pinv (expandAt a k))

theorem adjDown_le (a x : Nat) (h : x ≤ a) : adjDown a x = x := if_pos h

theorem adjDown_gt (a x : Nat) (h : a < x) : adjDown a x = x - 1 :=
  if_neg (by omega)

theorem expandAt_le (m mB : Nat) (h : mB ≤ m) : expandAt m mB = mB := if_pos h

theorem expandAt_gt (m mB : Nat) (h : m < mB) : expandAt m mB = mB + 1 :=
  if_neg (by omega)

theorem mergeAt_lt (m : Nat) (S : Nat → Nat) (k : Nat) (h : k < m) :
    mergeAt m S k = S k := if_pos h

theorem mergeAt_self (m : Nat) (S : Nat → Nat) :
    mergeAt m S m = S m * S (m + 1) := by
  simp [mergeAt]

theorem mergeAt_gt (m : Nat) (S : Nat → Nat) (k : Nat) (h : m < k) :
    mergeAt m S k = S (k + 1) := by
  simp only [mergeAt]
  rw [if_neg (by omega), if_neg (by omega)]

theorem shf_mergeAt (m : Nat) (S : Nat → Nat) :
    shf (mergeAt (m + 1) S) = mergeAt m (shf S) := by
  funext k
  show mergeAt (m + 1) S (k + 1) = mergeAt m (shf S) k
  simp only [mergeAt, shf]
  rcases Nat.lt_trichotomy k m with h | h | h
  · rw [if_pos (by omega), if_pos h]
  · subst h
    rw [if_neg (by omega), if_pos rfl, if_neg (by omega), if_pos rfl]
  · rw [if_neg (by omega), if_neg (by omega), if_neg (by omega),
      if_neg (by omega)]

theorem shf_mergeAt_zero (S : Nat → Nat) :
    shf (mergeAt 0 S) = shf (shf S) := by
  funext k
  show mergeAt 0 S (k + 1) = S (k + 2)
  simp only [mergeAt]
  rw [if_neg (by omega), if_neg (by omega)]

theorem mergeAt_zero_self (S : Nat → Nat) : mergeAt 0 S 0 = S 0 * S 1 := by
  simp [mergeAt]

theorem mergeAt_succ_zero (m : Nat) (S : Nat → Nat) :
    mergeAt (m + 1) S 0 = S 0 := by
  simp [mergeAt]

theorem prodUpTo_mergeAt (m : Nat) (S : Nat → Nat) (d : Nat) (h : m < d + 1) :
    prodUpTo (mergeAt m S) (d + 1) = prodUpTo S (d + 2) := by
  induction m generalizing S d with
  | zero =>
    show mergeAt 0 S 0 * prodUpTo (shf (mergeAt 0 S)) d = _
    rw [mergeAt_zero_self, shf_mergeAt_zero]
    show S 0 * S 1 * prodUpTo (shf (shf S)) d
        = S 0 * (S 1 * prodUpTo (shf (shf S)) d)
    ring
  | succ m ih =>
    cases d with
    | zero => omega
    | succ d =>
      show mergeAt (m + 1) S 0 * prodUpTo (shf (mergeAt (m + 1) S)) (d + 1) = _
      rw [mergeAt_succ_zero, shf_mergeAt, ih (shf S) d (by omega)]
      rfl

theorem decodeMR_mergeAt_lt (m : Nat) (S : Nat → Nat) (t k : Nat) (h : k < m) :
    decodeMR (mergeAt m S) t k = decodeMR S t k := by
  induction k generalizing m S t with
  | zero =>
    show t % mergeAt m S 0 = t % S 0
    simp only [mergeAt]
    rw [if_pos (by omega)]
  | succ k ih =>
    cases m with
    | zero => omega
    | succ m =>
      show decodeMR (shf (mergeAt (m + 1) S)) (t / mergeAt (m + 1) S 0) k = _
      rw [mergeAt_succ_zero, shf_mergeAt]
      exact ih m (shf S) (t / S 0) (by omega)

theorem decodeMR_mergeAt_self (m : Nat) (S : Nat → Nat) (t : Nat) :
    decodeMR (mergeAt m S) t m = decodeMR S t m + S m * decodeMR S t (m + 1) := by
  induction m generalizing S t with
  | zero =>
    show t % mergeAt 0 S 0 = t % S 0 + S 0 * decodeMR S t 1
    rw [mergeAt_zero_self]
    show t % (S 0 * S 1) = t % S 0 + S 0 * (t / S 0 % S 1)
    exact Nat.mod_mul
  | succ m ih =>
    show decodeMR (shf (mergeAt (m + 1) S)) (t / mergeAt (m + 1) S 0) m = _
    rw [mergeAt_succ_zero, shf_mergeAt]
    exact ih (shf S) (t / S 0)

theorem decodeMR_mergeAt_gt (m : Nat) (S : Nat → Nat) (t k : Nat) (h : m < k) :
    decodeMR (mergeAt m S) t k = decodeMR S t (k + 1) := by
  induction m generalizing S t k with
  | zero =>
    cases k with
    | zero => omega
    | succ k =>
      show decodeMR (shf (mergeAt 0 S)) (t / mergeAt 0 S 0) k = _
      rw [mergeAt_zero_self, shf_mergeAt_zero, ← Nat.div_div_eq_div_mul]
      rfl
  | succ m ih =>
    cases k with
    | zero => omega
    | succ k =>
      show decodeMR (shf (mergeAt (m + 1) S)) (t / mergeAt (m + 1) S 0) k = _
      rw [mergeAt_succ_zero, shf_mergeAt]
      exact ih (shf S) (t / S 0) k (by omega)

theorem encodeMR_mergeAt (m : Nat) (S : Nat → Nat) (d : Nat)
    (j j' : Nat → Nat) (hm : m < d + 1)
    (h1 : ∀ k, k < m → j' k = j k)
    (h2 : j' m = j m + S m * j (m + 1))
    (h3 : ∀ k, m < k → k < d + 1 → j' k = j (k + 1)) :
    encodeMR (mergeAt m S) (d + 1) j' = encodeMR S (d + 2) j := by
  induction m generalizing S d j j' with
  | zero =>
    show j' 0 + mergeAt 0 S 0 * encodeMR (shf (mergeAt 0 S)) d (shf j')
        = j 0 + S 0 * (j 1 + S 1 * encodeMR (shf (shf S)) d (shf (shf j)))
    rw [mergeAt_zero_self, shf_mergeAt_zero, h2]
    rw [encodeMR_congr (shf (shf S)) d (shf j') (shf (shf j))
      (fun k hk => h3 (k + 1) (by omega) (by omega))]
    ring
  | succ m ih =>
    cases d with
    | zero => omega
    | succ d =>
      show j' 0 + mergeAt (m + 1) S 0
            * encodeMR (shf (mergeAt (m + 1) S)) (d + 1) (shf j')
          = j 0 + S 0 * encodeMR (shf S) (d + 2) (shf j)
      rw [mergeAt_succ_zero, shf_mergeAt, h1 0 (by omega)]
      rw [ih (shf S) d (shf j) (shf j') (by omega)
        (fun k hk => h1 (k + 1) (by omega))
        (h2)
        (fun k hk1 hk2 => h3 (k + 1) (by omega) (by omega))]

theorem fusedSB_eq (n m a : Nat) (SA : Nat → Nat) (p pinv : Nat → Nat)
    (hm : m + 1 < n + 2)
    (hip : ∀ k, k < n + 2 → pinv (p k) = k)
    (ha : p m = a) (hfuse : p (m + 1) = a + 1) :
    ∀ mB, mB < n + 1 →
      sizeBOf (mergeAt a SA) (fusedPerm m a p) mB
        = mergeAt m (sizeBOf SA p) mB := by
  have hne1 : ∀ x, x < n + 2 → x ≠ m → p x ≠ a := by
    intro x hx hxm hax
    have h1 := hip x hx
    have h2 := hip m (by omega)
    rw [hax] at h1
    rw [ha] at h2
    omega
  have hne2 : ∀ x, x < n + 2 → x ≠ m + 1 → p x ≠ a + 1 := by
    intro x hx hxm hax
    have h1 := hip x hx
    have h2 := hip (m + 1) hm
    rw [hax] at h1
    rw [hfuse] at h2
    omega
  intro mB hmB
  rcases Nat.lt_trichotomy mB m with h | rfl | h
  · rw [mergeAt_lt m _ mB h]
    show mergeAt a SA (adjDown a (p (expandAt m mB))) = SA (p mB)
    rw [expandAt_le m mB (by omega)]
    have hx1 : p mB ≠ a := hne1 mB (by omega) (by omega)
    have hx2 : p mB ≠ a + 1 := hne2 mB (by omega) (by omega)
    rcases Nat.lt_or_ge (p mB) a with hlt | hge
    · rw [adjDown_le a _ (by omega), mergeAt_lt a SA _ hlt]
    · rw [adjDown_gt a _ (by omega), mergeAt_gt a SA _ (by omega)]
      congr 1
      omega
  · rw [mergeAt_self]
    show mergeAt a SA (adjDown a (p (expandAt mB mB)))
        = sizeBOf SA p mB * sizeBOf SA p (mB + 1)
    rw [expandAt_le mB mB (Nat.le_refl mB), ha,
      adjDown_le a a (Nat.le_refl a), mergeAt_self]
    show SA a * SA (a + 1) = SA (p mB) * SA (p (mB + 1))
    rw [ha, hfuse]
  · rw [mergeAt_gt m _ mB h]
    show mergeAt a SA (adjDown a (p (expandAt m mB))) = SA (p (mB + 1))
    rw [expandAt_gt m mB h]
    have hx1 : p (mB + 1) ≠ a := hne1 (mB + 1) (by omega) (by omega)
    have hx2 : p (mB + 1) ≠ a + 1 := hne2 (mB + 1) (by omega) (by omega)
    rcases Nat.lt_or_ge (p (mB + 1)) a with hlt | hge
    · rw [adjDown_le a _ (by omega), mergeAt_lt a SA _ hlt]
    · rw [adjDown_gt a _ (by omega), mergeAt_gt a SA _ (by omega)]
      congr 1
      omega

theorem fused_decode_lt (n m a : Nat) (SA : Nat → Nat) (p pinv : Nat → Nat)
    (hm : m + 1 < n + 2)
    (hip : ∀ k, k < n + 2 → pinv (p k) = k)
    (ha : p m = a) (hfuse : p (m + 1) = a + 1) (t k : Nat) (hk : k < m) :
    decodeMR (sizeBOf (mergeAt a SA) (fusedPerm m a p)) t k
      = decodeMR (sizeBOf SA p) t k := by
  rw [decodeMR_congr _ (mergeAt m (sizeBOf SA p)) t k
    (fun x hx => fusedSB_eq n m a SA p pinv hm hip ha hfuse x (by omega))]
  exact decodeMR_mergeAt_lt m _ t k hk

theorem fused_decode_self (n m a : Nat) (SA : Nat → Nat) (p pinv : Nat → Nat)
    (hm : m + 1 < n + 2)
    (hip : ∀ k, k < n + 2 → pinv (p k) = k)
    (ha : p m = a) (hfuse : p (m + 1) = a + 1) (t : Nat) :
    decodeMR (sizeBOf (mergeAt a SA) (fusedPerm m a p)) t m
      = decodeMR (sizeBOf SA p) t m
        + sizeBOf SA p m * decodeMR (sizeBOf SA p) t (m + 1) := by
  rw [decodeMR_congr _ (mergeAt m (sizeBOf SA p)) t m
    (fun x hx => fusedSB_eq n m a SA p pinv hm hip ha hfuse x (by omega))]
  exact decodeMR_mergeAt_self m _ t

theorem fused_decode_gt (n m a : Nat) (SA : Nat → Nat) (p pinv : Nat → Nat)
    (hm : m + 1 < n + 2)
    (hip : ∀ k, k < n + 2 → pinv (p k) = k)
    (ha : p m = a) (hfuse : p (m + 1) = a + 1) (t k : Nat)
    (hk1 : m < k) (hk2 : k < n + 1) :
    decodeMR (sizeBOf (mergeAt a SA) (fusedPerm m a p)) t k
      = decodeMR (sizeBOf SA p) t (k + 1) := by
  rw [decodeMR_congr _ (mergeAt m (sizeBOf SA p)) t k
    (fun x hx => fusedSB_eq n m a SA p pinv hm hip ha hfuse x (by omega))]
  exact decodeMR_mergeAt_gt m _ t k hk1

theorem fused_offB_eq (n m a : Nat) (SA OB : Nat → Nat) (p pinv : Nat → Nat)
    (hm : m + 1 < n + 2)
    (hip : ∀ k, k < n + 2 → pinv (p k) = k)
    (ha : p m = a) (hfuse : p (m + 1) = a + 1)
    (hOB : OB m = SA (p m)) (t : Nat) :
    encodeMR (mergeAt m OB) (n + 1)
        (decodeMR (sizeBOf (mergeAt a SA) (fusedPerm m a p)) t)
      = encodeMR OB (n + 2) (decodeMR (sizeBOf SA p) t) := by
  apply encodeMR_mergeAt m OB n _ _ (by omega)
  · intro k hk
    exact fused_decode_lt n m a SA p pinv hm hip ha hfuse t k hk
  · rw [fused_decode_self n m a SA p pinv hm hip ha hfuse t, hOB]
    rfl
  · intro k hk1 hk2
    exact fused_decode_gt n m a SA p pinv hm hip ha hfuse t k hk1 hk2

theorem fused_offA_eq (n m a : Nat) (SA OA : Nat → Nat) (p pinv : Nat → Nat)
    (hm : m + 1 < n + 2) (haN : a + 1 < n + 2)
    (hpinv : ∀ k, k < n + 2 → pinv k < n + 2)
    (hip : ∀ k, k < n + 2 → pinv (p k) = k)
    (hpi : ∀ k, k < n + 2 → p (pinv k) = k)
    (ha : p m = a) (hfuse : p (m + 1) = a + 1)
    (hOA : OA (p m) = SA (p m)) (t : Nat) :
    encodeMR (mergeAt a OA) (n + 1)
        (fun k => decodeMR (sizeBOf (mergeAt a SA) (fusedPerm m a p)) t
          (fusedPermInv m a pinv k))
      = encodeMR OA (n + 2)
        (fun k => decodeMR (sizeBOf SA p) t (pinv k)) := by
  have hq1 : ∀ x, x < n + 2 → x ≠ a → pinv x ≠ m := by
    intro x hx hxa hc
    have h1 := hpi x hx
    rw [hc, ha] at h1
    omega
  have hq2 : ∀ x, x < n + 2 → x ≠ a + 1 → pinv x ≠ m + 1 := by
    intro x hx hxa hc
    have h1 := hpi x hx
    rw [hc, hfuse] at h1
    omega
  have hpinva : pinv a = m := by
    have h1 := hip m (by omega)
    rw [ha] at h1
    exact h1
  have hpinva1 : pinv (a + 1) = m + 1 := by
    have h1 := hip (m + 1) hm
    rw [hfuse] at h1
    exact h1
  apply encodeMR_mergeAt a OA n _ _ (by omega)
  · intro k hk
    have hkn : k < n + 2 := by omega
    have hx1 : pinv k ≠ m := hq1 k hkn (by omega)
    have hx2 : pinv k ≠ m + 1 := hq2 k hkn (by omega)
    have hpb : pinv k < n + 2 := hpinv k hkn
    show decodeMR (sizeBOf (mergeAt a SA) (fusedPerm m a p)) t
        (adjDown m (pinv (expandAt a k)))
      = decodeMR (sizeBOf SA p) t (pinv k)
    rw [expandAt_le a k (by omega)]
    rcases Nat.lt_or_ge (pinv k) m with hlt | hge
    · rw [adjDown_le m _ (by omega)]
      exact fused_decode_lt n m a SA p pinv hm hip ha hfuse t (pinv k) hlt
    · rw [adjDown_gt m _ (by omega)]
      rw [fused_decode_gt n m a SA p pinv hm hip ha hfuse t (pinv k - 1)
        (by omega) (by omega)]
      congr 1
      omega
  · show decodeMR (sizeBOf (mergeAt a SA) (fusedPerm m a p)) t
        (adjDown m (pinv (expandAt a a)))
      = decodeMR (sizeBOf SA p) t (pinv a)
        + OA a * decodeMR (sizeBOf SA p) t (pinv (a + 1))
    rw [expandAt_le a a (Nat.le_refl a), hpinva, hpinva1,
      adjDown_le m m (Nat.le_refl m),
      fused_decode_self n m a SA p pinv hm hip ha hfuse t]
    have hOAa : OA a = sizeBOf SA p m := by
      rw [← ha]
      exact hOA
    rw [hOAa]
  · intro k hk1 hk2
    have hkn : k + 1 < n + 2 := by omega
    have hx1 : pinv (k + 1) ≠ m := hq1 (k + 1) hkn (by omega)
    have hx2 : pinv (k + 1) ≠ m + 1 := hq2 (k + 1) hkn (by omega)
    have hpb : pinv (k + 1) < n + 2 := hpinv (k + 1) hkn
    show decodeMR (sizeBOf (mergeAt a SA) (fusedPerm m a p)) t
        (adjDown m (pinv (expandAt a k)))
      = decodeMR (sizeBOf SA p) t (pinv (k + 1))
    rw [expandAt_gt a k hk1]
    rcases Nat.lt_or_ge (pinv (k + 1)) m with hlt | hge
    · rw [adjDown_le m _ (by omega)]
      exact fused_decode_lt n m a SA p pinv hm hip ha hfuse t (pinv (k + 1)) hlt
    · rw [adjDown_gt m _ (by omega)]
      rw [fused_decode_gt n m a SA p pinv hm hip ha hfuse t (pinv (k + 1) - 1)
        (by omega) (by omega)]
      congr 1
      omega

theorem fused_total_eq (n m a : Nat) (SA : Nat → Nat) (p pinv : Nat → Nat)
    (hm : m + 1 < n + 2)
    (hip : ∀ k, k < n + 2 → pinv (p k) = k)
    (ha : p m = a) (hfuse : p (m + 1) = a + 1) :
    prodUpTo (sizeBOf (mergeAt a SA) (fusedPerm m a p)) (n + 1)
      = prodUpTo (sizeBOf SA p) (n + 2) := by
  rw [prodUpTo_congr _ (mergeAt m (sizeBOf SA p)) (n + 1)
    (fun x hx => fusedSB_eq n m a SA p pinv hm hip ha hfuse x hx)]
  exact prodUpTo_mergeAt m _ n (by omega)

/-- C3: fusing a fusible adjacent pair — B positions `m, m+1` drawing from
adjacent A axes (`p (m+1) = p m + 1`) with no padding on the lower axis of
the pair on either side — leaves the executed result unchanged on every
memory cell, while reducing the rank from `n+2` to `n+1`.  The fused
descriptor merges the pair's sizes/outer sizes into a product axis and
renumbers the remaining axes; the flat memories are untouched. -/
theorem C3_fusion_equivalence (n m : Nat) (SA OA OB p pinv : Nat → Nat)
    (alpha beta : Int) (MA MB0 : Nat → Int)
    (hm : m + 1 < n + 2)
    (hp : ∀ k, k < n + 2 → p k < n + 2)
    (hpinv : ∀ k, k < n + 2 → pinv k < n + 2)
    (hip : ∀ k, k < n + 2 → pinv (p k) = k)
    (hpi : ∀ k, k < n + 2 → p (pinv k) = k)
    (hfuse : p (m + 1) = p m + 1)
    (hOA : OA (p m) = SA (p m))
    (hOB : OB m = SA (p m)) :
    executeMem (n + 1) (mergeAt (p m) SA) (mergeAt (p m) OA) (mergeAt m OB)
        (fusedPerm m (p m) p) (fusedPermInv m (p m) pinv) alpha beta MA MB0
      = executeMem (n + 2) SA OA OB p pinv alpha beta MA MB0 := by
  have haN : p m + 1 < n + 2 := by
    have h1 := hp (m + 1) hm
    rw [hfuse] at h1
    exact h1
  have hstep : execStep (n + 1) (mergeAt (p m) SA) (mergeAt (p m) OA)
      (mergeAt m OB) (fusedPerm m (p m) p) (fusedPermInv m (p m) pinv)
      alpha beta MA MB0
        = execStep (n + 2) SA OA OB p pinv alpha beta MA MB0 := by
    funext M t
    simp only [execStep]
    rw [fused_offB_eq n m (p m) SA OB p pinv hm hip rfl hfuse hOB t,
      fused_offA_eq n m (p m) SA OA p pinv hm haN hpinv hip hpi rfl hfuse
        hOA t]
  show List.foldl (execStep (n + 1) (mergeAt (p m) SA) (mergeAt (p m) OA)
      (mergeAt m OB) (fusedPerm m (p m) p) (fusedPermInv m (p m) pinv)
      alpha beta MA MB0) MB0
      (List.range (prodUpTo (sizeBOf (mergeAt (p m) SA)
        (fusedPerm m (p m) p)) (n + 1)))
    = List.foldl (execStep (n + 2) SA OA OB p pinv alpha beta MA MB0) MB0
      (List.range (prodUpTo (sizeBOf SA p) (n + 2)))
  rw [hstep, fused_total_eq n m (p m) SA p pinv hm hip rfl hfuse]

/-- Witness for C3 at a concrete input: rank 2 with the identity
permutation and sizes `[2, 3]`, fusing the pair at position 0 into a
single axis of size 6 (no padding on the fused lower axes). -/
theorem C3_witness :
    executeMem 1 (mergeAt 0 (fun k => if k = 0 then 2 else 3))
        (mergeAt 0 (fun k => if k = 0 then 2 else 4))
        (mergeAt 0 (fun k => if k = 0 then 2 else 5))
        (fusedPerm 0 0 (fun k => k)) (fusedPermInv 0 0 (fun k => k))
        2 3 (fun off => (off : Int) * 10) (fun off => (off : Int) + 1)
      = executeMem 2 (fun k => if k = 0 then 2 else 3)
        (fun k => if k = 0 then 2 else 4) (fun k => if k = 0 then 2 else 5)
        (fun k => k) (fun k => k) 2 3 (fun off => (off : Int) * 10)
        (fun off => (off : Int) + 1) :=
  C3_fusion_equivalence 0 0 (fun k => if k = 0 then 2 else 3)
    (fun k => if k = 0 then 2 else 4) (fun k => if k = 0 then 2 else 5)
    (fun k => k) (fun k => k) 2 3 (fun off => (off : Int) * 10)
    (fun off => (off : Int) + 1) (by decide) (by decide) (by decide)
    (by decide) (by decide) (by decide) (by decide) (by decide)

/-!
## ComputeNode and Plan (src/src/hptt.h, lines 35-81)

`ComputeNode`'s five index members have type `size_t`; the default
constructor initializes all of them with `-1`, which converts modularly to
`2^w - 1` for a `w`-bit `size_t`.  The model keeps the word width `w` as a
parameter and performs the conversion exactly as C++ does.
-/

/-- C++ conversion of a signed value to a `w`-bit unsigned type
(reduction modulo `2^w`). -/
def toSizeT (w : Nat) (x : Int) : Nat := (x % ((2 : Int) ^ w)).toNat

/-- `ComputeNode` (src/src/hptt.h:35-50): five `size_t` loop descriptors
and an owning pointer to the next node. -/
inductive ComputeNode where
  | mk (start end_ inc lda ldb : Nat) (next : Option ComputeNode)

def ComputeNode.start : ComputeNode → Nat
  | .mk s _ _ _ _ _ => s

def ComputeNode.end_ : ComputeNode → Nat
  | .mk _ e _ _ _ _ => e

def ComputeNode.inc : ComputeNode → Nat
  | .mk _ _ i _ _ _ => i

def ComputeNode.lda : ComputeNode → Nat
  | .mk _ _ _ l _ _ => l

def ComputeNode.ldb : ComputeNode → Nat
  | .mk _ _ _ _ l _ => l

def ComputeNode.next : ComputeNode → Option ComputeNode
  | .mk _ _ _ _ _ n => n

/-- The default constructor `ComputeNode() : start(-1), end(-1), inc(-1),
lda(-1), ldb(-1), next(nullptr)` (src/src/hptt.h:37) on a machine with a
`w`-bit `size_t`. -/
def ComputeNode.defaultNode (w : Nat) : ComputeNode :=
  .mk (toSizeT w (-1)) (toSizeT w (-1)) (toSizeT w (-1)) (toSizeT w (-1))
    (toSizeT w (-1)) none

/-- Modelled from the spec: the trip count of the macro-kernel walker's
loop `for (i = start; i < end; i += inc)` (spec §4.4) for a positive
increment without overflow. -/
def loopIterations (s e inc : Nat) : Nat := (e - s + inc - 1) / inc

theorem toSizeT_neg_one (w : Nat) : toSizeT w (-1) = 2 ^ w - 1 := by
  have hcast : ((2 : Int) ^ w) = ((2 ^ w : Nat) : Int) := by
    push_cast
    ring
  have hone : 1 ≤ 2 ^ w := Nat.one_le_two_pow
  have hmod : (-1 : Int) % 2 ^ w = 2 ^ w - 1 := by
    have h1 : ((2 : Int) ^ w - 1) + 2 ^ w * (-1) = -1 := by ring
    have h2 : (-1 : Int) % 2 ^ w = ((2 : Int) ^ w - 1) % 2 ^ w := by
      rw [← h1, Int.add_mul_emod_self_left]
    rw [h2]
    apply Int.emod_eq_of_lt
    · rw [hcast]
      omega
    · omega
  rw [toSizeT, hmod, hcast]
  omega

/-- C10: a default-constructed `ComputeNode` has `next = nullptr` and all
five `size_t` members equal to `2^w - 1` (the modular conversion of `-1`),
so `start < end` is false and a walker loop over such a node performs zero
iterations. -/
theorem C10_default_node (w : Nat) :
    (ComputeNode.defaultNode w).start = 2 ^ w - 1 ∧
    (ComputeNode.defaultNode w).end_ = 2 ^ w - 1 ∧
    (ComputeNode.defaultNode w).inc = 2 ^ w - 1 ∧
    (ComputeNode.defaultNode w).lda = 2 ^ w - 1 ∧
    (ComputeNode.defaultNode w).ldb = 2 ^ w - 1 ∧
    (ComputeNode.defaultNode w).next = none ∧
    ¬ (ComputeNode.defaultNode w).start < (ComputeNode.defaultNode w).end_ ∧
    loopIterations (ComputeNode.defaultNode w).start
      (ComputeNode.defaultNode w).end_ (ComputeNode.defaultNode w).inc = 0 := by
  have hs : (ComputeNode.defaultNode w).start = 2 ^ w - 1 := toSizeT_neg_one w
  have he : (ComputeNode.defaultNode w).end_ = 2 ^ w - 1 := toSizeT_neg_one w
  have hi : (ComputeNode.defaultNode w).inc = 2 ^ w - 1 := toSizeT_neg_one w
  refine ⟨hs, he, hi, toSizeT_neg_one w, toSizeT_neg_one w, rfl, ?_, ?_⟩
  · rw [hs, he]
    omega
  · rw [hs, he, hi, loopIterations]
    rcases Nat.eq_zero_or_pos (2 ^ w - 1) with hz | hp
    · rw [hz]
    · apply Nat.div_eq_of_lt
      omega

/-- `Plan` (src/src/hptt.h:52-81): loop order, parallelism vector, task
count and the per-task root `ComputeNode`s. -/
structure Plan where
  numTasks_ : Int
  loopOrder_ : List Int
  numThreadsAtLoop_ : List Int
  rootNodes_ : List ComputeNode

/-- The constructor `Plan(loopOrder, numThreadsAtLoop)`
(src/src/hptt.h:56-61): `numTasks_` starts at 1 and is multiplied by every
entry of `numThreadsAtLoop`, then `new ComputeNode[numTasks_]`
default-constructs that many root nodes (on a `w`-bit machine). -/
def Plan.ofLoops (w : Nat) (loopOrder numThreadsAtLoop : List Int) : Plan :=
  { numTasks_ := List.foldl (fun acc nt => acc * nt) 1 numThreadsAtLoop
    loopOrder_ := loopOrder
    numThreadsAtLoop_ := numThreadsAtLoop
    rootNodes_ :=
      List.replicate
        (List.foldl (fun acc nt => acc * nt) 1 numThreadsAtLoop).toNat
        (ComputeNode.defaultNode w) }

/-- `Plan::getNumTasks` (src/src/hptt.h:74). -/
def Plan.getNumTasks (pl : Plan) : Int := pl.numTasks_

/-- C6: the `Plan` constructor sets `numTasks_` to the product of the
parallelism vector's entries (1 for the empty vector, since `List.prod`
of the empty list is 1), allocates exactly `numTasks_` root
`ComputeNode`s — one ComputeTree per worker — and `getNumTasks` returns
that product. -/
theorem C6_plan_tasks (w : Nat) (loopOrder numThreadsAtLoop : List Int)
    (h : ∀ x ∈ numThreadsAtLoop, 0 < x) :
    (Plan.ofLoops w loopOrder numThreadsAtLoop).numTasks_
        = numThreadsAtLoop.prod ∧
    ((Plan.ofLoops w loopOrder numThreadsAtLoop).rootNodes_.length : Int)
        = (Plan.ofLoops w loopOrder numThreadsAtLoop).numTasks_ ∧
    (Plan.ofLoops w loopOrder numThreadsAtLoop).getNumTasks
        = numThreadsAtLoop.prod := by
  have hfold : List.foldl (fun acc nt => acc * nt) 1 numThreadsAtLoop
      = numThreadsAtLoop.prod := (List.prod_eq_foldl).symm
  have hpos : 0 < numThreadsAtLoop.prod := List.prod_pos h
  refine ⟨hfold, ?_, hfold⟩
  simp only [Plan.ofLoops, List.length_replicate]
  rw [hfold, Int.toNat_of_nonneg (by omega)]

/-- Witness for C6 at a concrete input: parallelism vector `[2, 3]` gives
6 tasks and 6 root nodes. -/
theorem C6_witness :
    (Plan.ofLoops 64 [1, 0] [2, 3]).numTasks_ = ([2, 3] : List Int).prod ∧
    ((Plan.ofLoops 64 [1, 0] [2, 3]).rootNodes_.length : Int)
        = (Plan.ofLoops 64 [1, 0] [2, 3]).numTasks_ ∧
    (Plan.ofLoops 64 [1, 0] [2, 3]).getNumTasks = ([2, 3] : List Int).prod :=
  C6_plan_tasks 64 [1, 0] [2, 3] (by decide)

/-!
## Element types and blocking constants (src/src/hptt.h, lines 17-22 and
230-231)
-/

/-- The four element types the library instantiates
(src/src/hptt.h:264-267). -/
inductive FloatType where
  | float
  | double
  | floatComplex
  | doubleComplex
deriving DecidableEq

/-- `sizeof` of each element type on the targeted platforms. -/
def sizeofElem : FloatType → Nat
  | .float => 4
  | .double => 8
  | .floatComplex => 8
  | .doubleComplex => 16

/-- `REGISTER_BITS` (src/src/hptt.h:17): 256 for AVX, the default build
(the ARM branch redefines it to 128). -/
def REGISTER_BITS : Nat := 256

/-- `blocking_micro_ = REGISTER_BITS / 8 / sizeof(floatType)`
(src/src/hptt.h:230). -/
def blocking_micro_ (ft : FloatType) : Nat := REGISTER_BITS / 8 / sizeofElem ft

/-- `blocking_ = blocking_micro_ * 4` (src/src/hptt.h:231). -/
def blocking_ (ft : FloatType) : Nat := blocking_micro_ ft * 4

/-- C7: for every element type the micro-tile edge equals the SIMD lane
count `L = REGISTER_BITS / (8 * sizeof(elem))` and the macro-tile edge
equals `4 * L`; with 256-bit registers this gives 8 and 32 for `float`,
4 and 16 for `double`. -/
theorem C7_blocking_constants :
    (∀ ft, blocking_micro_ ft = REGISTER_BITS / (8 * sizeofElem ft) ∧
      blocking_ ft = 4 * (REGISTER_BITS / (8 * sizeofElem ft))) ∧
    blocking_micro_ .float = 8 ∧ blocking_ .float = 32 ∧
    blocking_micro_ .double = 4 ∧ blocking_ .double = 16 := by
  refine ⟨fun ft => ?_, rfl, rfl, rfl, rfl⟩
  cases ft <;> exact ⟨rfl, rfl⟩

/-!
## The Transpose class (src/src/hptt.h, lines 83-235)

Data members as declared at lines 214-234; raw pointers are modelled as
addresses (`Nat`), `std::shared_ptr<Plan>` as `Option Plan` (`none` is the
null handle) and the element type as a type parameter.
-/

/-- `enum SelectionMethod` (src/src/hptt.h:83). -/
inductive SelectionMethod where
  | ESTIMATE
  | MEASURE
  | PATIENT
  | CRAZY
deriving DecidableEq

/-- The data members of `Transpose<floatType>` (src/src/hptt.h:214-234). -/
structure TransposeModel (F : Type) where
  A_ : Nat
  B_ : Nat
  alpha_ : F
  beta_ : F
  dim_ : Int
  sizeA_ : List Nat
  perm_ : List Int
  outerSizeA_ : List Nat
  outerSizeB_ : List Nat
  lda_ : List Nat
  ldb_ : List Nat
  numThreads_ : Int
  selectedParallelStrategyId_ : Int
  masterPlan_ : Option Plan
  selectionMethod_ : SelectionMethod
  blocking_constStride1_ : Int

/-- `setNumThreads` (src/src/hptt.h:157). -/
def TransposeModel.setNumThreads {F : Type} (t : TransposeModel F)
    (numThreads : Int) : TransposeModel F :=
  { t with numThreads_ := numThreads }

/-- `setAlpha` (src/src/hptt.h:161). -/
def TransposeModel.setAlpha {F : Type} (t : TransposeModel F)
    (alpha : F) : TransposeModel F :=
  { t with alpha_ := alpha }

/-- `setBeta` (src/src/hptt.h:162). -/
def TransposeModel.setBeta {F : Type} (t : TransposeModel F)
    (beta : F) : TransposeModel F :=
  { t with beta_ := beta }

/-- `setInputPtr` (src/src/hptt.h:165). -/
def TransposeModel.setInputPtr {F : Type} (t : TransposeModel F)
    (A : Nat) : TransposeModel F :=
  { t with A_ := A }

/-- `setOutputPtr` (src/src/hptt.h:166). -/
def TransposeModel.setOutputPtr {F : Type} (t : TransposeModel F)
    (B : Nat) : TransposeModel F :=
  { t with B_ := B }

/-- The copy constructor `Transpose(const Transpose &other)`
(src/src/hptt.h:136-149).  Its member-initializer list copies every data
member except `blocking_constStride1_`, which C++ therefore leaves
uninitialized in the copy; the model takes that indeterminate value as an
explicit parameter. -/
def TransposeModel.copyCtor {F : Type} (other : TransposeModel F)
    (indeterminate : Int) : TransposeModel F :=
  { A_ := other.A_
    B_ := other.B_
    alpha_ := other.alpha_
    beta_ := other.beta_
    dim_ := other.dim_
    numThreads_ := other.numThreads_
    masterPlan_ := other.masterPlan_
    selectionMethod_ := other.selectionMethod_
    selectedParallelStrategyId_ := other.selectedParallelStrategyId_
    sizeA_ := other.sizeA_
    perm_ := other.perm_
    outerSizeA_ := other.outerSizeA_
    outerSizeB_ := other.outerSizeB_
    lda_ := other.lda_
    ldb_ := other.ldb_
    blocking_constStride1_ := indeterminate }

/-- C8: each of the five setters changes only its own field; the master
plan, `dim_`, the sizes, the permutation and the leading dimensions are
untouched, so one plan can be reused with fresh pointers and scalars. -/
theorem C8_setters_frame {F : Type} (t : TransposeModel F) (a b : F)
    (pA pB : Nat) (nT : Int) :
    ((t.setAlpha a).alpha_ = a ∧ (t.setAlpha a).A_ = t.A_ ∧
      (t.setAlpha a).B_ = t.B_ ∧ (t.setAlpha a).beta_ = t.beta_ ∧
      (t.setAlpha a).dim_ = t.dim_ ∧ (t.setAlpha a).sizeA_ = t.sizeA_ ∧
      (t.setAlpha a).perm_ = t.perm_ ∧
      (t.setAlpha a).outerSizeA_ = t.outerSizeA_ ∧
      (t.setAlpha a).outerSizeB_ = t.outerSizeB_ ∧
      (t.setAlpha a).lda_ = t.lda_ ∧ (t.setAlpha a).ldb_ = t.ldb_ ∧
      (t.setAlpha a).numThreads_ = t.numThreads_ ∧
      (t.setAlpha a).selectedParallelStrategyId_
        = t.selectedParallelStrategyId_ ∧
      (t.setAlpha a).masterPlan_ = t.masterPlan_ ∧
      (t.setAlpha a).selectionMethod_ = t.selectionMethod_ ∧
      (t.setAlpha a).blocking_constStride1_ = t.blocking_constStride1_) ∧
    ((t.setBeta b).beta_ = b ∧ (t.setBeta b).A_ = t.A_ ∧
      (t.setBeta b).B_ = t.B_ ∧ (t.setBeta b).alpha_ = t.alpha_ ∧
      (t.setBeta b).dim_ = t.dim_ ∧ (t.setBeta b).sizeA_ = t.sizeA_ ∧
      (t.setBeta b).perm_ = t.perm_ ∧
      (t.setBeta b).outerSizeA_ = t.outerSizeA_ ∧
      (t.setBeta b).outerSizeB_ = t.outerSizeB_ ∧
      (t.setBeta b).lda_ = t.lda_ ∧ (t.setBeta b).ldb_ = t.ldb_ ∧
      (t.setBeta b).numThreads_ = t.numThreads_ ∧
      (t.setBeta b).selectedParallelStrategyId_
        = t.selectedParallelStrategyId_ ∧
      (t.setBeta b).masterPlan_ = t.masterPlan_ ∧
      (t.setBeta b).selectionMethod_ = t.selectionMethod_ ∧
      (t.setBeta b).blocking_constStride1_ = t.blocking_constStride1_) ∧
    ((t.setInputPtr pA).A_ = pA ∧ (t.setInputPtr pA).B_ = t.B_ ∧
      (t.setInputPtr pA).alpha_ = t.alpha_ ∧
      (t.setInputPtr pA).beta_ = t.beta_ ∧
      (t.setInputPtr pA).dim_ = t.dim_ ∧
      (t.setInputPtr pA).sizeA_ = t.sizeA_ ∧
      (t.setInputPtr pA).perm_ = t.perm_ ∧
      (t.setInputPtr pA).outerSizeA_ = t.outerSizeA_ ∧
      (t.setInputPtr pA).outerSizeB_ = t.outerSizeB_ ∧
      (t.setInputPtr pA).lda_ = t.lda_ ∧ (t.setInputPtr pA).ldb_ = t.ldb_ ∧
      (t.setInputPtr pA).numThreads_ = t.numThreads_ ∧
      (t.setInputPtr pA).selectedParallelStrategyId_
        = t.selectedParallelStrategyId_ ∧
      (t.setInputPtr pA).masterPlan_ = t.masterPlan_ ∧
      (t.setInputPtr pA).selectionMethod_ = t.selectionMethod_ ∧
      (t.setInputPtr pA).blocking_constStride1_ = t.blocking_constStride1_) ∧
    ((t.setOutputPtr pB).B_ = pB ∧ (t.setOutputPtr pB).A_ = t.A_ ∧
      (t.setOutputPtr pB).alpha_ = t.alpha_ ∧
      (t.setOutputPtr pB).beta_ = t.beta_ ∧
      (t.setOutputPtr pB).dim_ = t.dim_ ∧
      (t.setOutputPtr pB).sizeA_ = t.sizeA_ ∧
      (t.setOutputPtr pB).perm_ = t.perm_ ∧
      (t.setOutputPtr pB).outerSizeA_ = t.outerSizeA_ ∧
      (t.setOutputPtr pB).outerSizeB_ = t.outerSizeB_ ∧
      (t.setOutputPtr pB).lda_ = t.lda_ ∧
      (t.setOutputPtr pB).ldb_ = t.ldb_ ∧
      (t.setOutputPtr pB).numThreads_ = t.numThreads_ ∧
      (t.setOutputPtr pB).selectedParallelStrategyId_
        = t.selectedParallelStrategyId_ ∧
      (t.setOutputPtr pB).masterPlan_ = t.masterPlan_ ∧
      (t.setOutputPtr pB).selectionMethod_ = t.selectionMethod_ ∧
      (t.setOutputPtr pB).blocking_constStride1_
        = t.blocking_constStride1_) ∧
    ((t.setNumThreads nT).numThreads_ = nT ∧
      (t.setNumThreads nT).A_ = t.A_ ∧ (t.setNumThreads nT).B_ = t.B_ ∧
      (t.setNumThreads nT).alpha_ = t.alpha_ ∧
      (t.setNumThreads nT).beta_ = t.beta_ ∧
      (t.setNumThreads nT).dim_ = t.dim_ ∧
      (t.setNumThreads nT).sizeA_ = t.sizeA_ ∧
      (t.setNumThreads nT).perm_ = t.perm_ ∧
      (t.setNumThreads nT).outerSizeA_ = t.outerSizeA_ ∧
      (t.setNumThreads nT).outerSizeB_ = t.outerSizeB_ ∧
      (t.setNumThreads nT).lda_ = t.lda_ ∧
      (t.setNumThreads nT).ldb_ = t.ldb_ ∧
      (t.setNumThreads nT).selectedParallelStrategyId_
        = t.selectedParallelStrategyId_ ∧
      (t.setNumThreads nT).masterPlan_ = t.masterPlan_ ∧
      (t.setNumThreads nT).selectionMethod_ = t.selectionMethod_ ∧
      (t.setNumThreads nT).blocking_constStride1_
        = t.blocking_constStride1_) := by
  and_intros <;> rfl

/-- A `Transpose<float>` object as the primary constructor leaves it:
`blocking_constStride1_` is initialized to 1 (src/src/hptt.h:111). -/
def exampleTranspose : TransposeModel Int :=
  { A_ := 0
    B_ := 1024
    alpha_ := 1
    beta_ := 0
    dim_ := 2
    sizeA_ := [3, 2]
    perm_ := [1, 0]
    outerSizeA_ := [3, 2]
    outerSizeB_ := [2, 3]
    lda_ := [1, 3]
    ldb_ := [1, 2]
    numThreads_ := 1
    selectedParallelStrategyId_ := -1
    masterPlan_ := none
    selectionMethod_ := .ESTIMATE
    blocking_constStride1_ := 1 }

/-- C9 (code bug): the copy constructor's initializer list omits
`blocking_constStride1_`, so the copy's value of that member is whatever
the uninitialized storage held — here 0 — and differs from the source's
value 1 set by the primary constructor, although every other member is
copied faithfully. -/
theorem C9_copy_misses_blocking :
    (exampleTranspose.copyCtor 0).blocking_constStride1_ = 0 ∧
    exampleTranspose.blocking_constStride1_ = 1 ∧
    (exampleTranspose.copyCtor 0).blocking_constStride1_
      ≠ exampleTranspose.blocking_constStride1_ ∧
    (exampleTranspose.copyCtor 0).A_ = exampleTranspose.A_ ∧
    (exampleTranspose.copyCtor 0).B_ = exampleTranspose.B_ ∧
    (exampleTranspose.copyCtor 0).alpha_ = exampleTranspose.alpha_ ∧
    (exampleTranspose.copyCtor 0).beta_ = exampleTranspose.beta_ ∧
    (exampleTranspose.copyCtor 0).dim_ = exampleTranspose.dim_ ∧
    (exampleTranspose.copyCtor 0).sizeA_ = exampleTranspose.sizeA_ ∧
    (exampleTranspose.copyCtor 0).perm_ = exampleTranspose.perm_ ∧
    (exampleTranspose.copyCtor 0).outerSizeA_
      = exampleTranspose.outerSizeA_ ∧
    (exampleTranspose.copyCtor 0).outerSizeB_
      = exampleTranspose.outerSizeB_ ∧
    (exampleTranspose.copyCtor 0).lda_ = exampleTranspose.lda_ ∧
    (exampleTranspose.copyCtor 0).ldb_ = exampleTranspose.ldb_ ∧
    (exampleTranspose.copyCtor 0).numThreads_
      = exampleTranspose.numThreads_ ∧
    (exampleTranspose.copyCtor 0).selectedParallelStrategyId_
      = exampleTranspose.selectedParallelStrategyId_ ∧
    (exampleTranspose.copyCtor 0).masterPlan_
      = exampleTranspose.masterPlan_ ∧
    (exampleTranspose.copyCtor 0).selectionMethod_
      = exampleTranspose.selectionMethod_ := by
  and_intros <;> first | rfl | decide

/-!
## Parameter validation and the error surface (C2)

`HPTT_ERROR_INFO` (src/src/hptt.h:26-30) is the repository's error
mechanism: with `DEBUG` defined it prints to stdout and calls `exit(-1)`;
without `DEBUG` it expands to nothing.  The constructor
(src/src/hptt.h:93-134) calls `verifyParameter` and then proceeds
unconditionally; `verifyParameter` is `void ... const` (line 200) and its
body is absent from the sources, so the checks it performs are modelled
from the spec (§4.2).
-/

inductive HpttError where
  | InvalidShape
deriving DecidableEq

/-- Effect of the `HPTT_ERROR_INFO` macro (src/src/hptt.h:26-30): print
and terminate the process when built with `DEBUG`, otherwise nothing. -/
inductive ErrorMacroEffect where
  | printAndExitProcess
  | noop
deriving DecidableEq

def errorInfoEffect (debug : Bool) : ErrorMacroEffect :=
  if debug then .printAndExitProcess else .noop

/-- Modelled from the spec: the checks of `Transpose::verifyParameter`
(body absent from the sources; spec §4.2 rejects with InvalidShape when
`d < 1`, when `π` is not a permutation of `{0..d)`, or when any outer size
is below the matching logical size on either operand; the best-effort
pointer-aliasing check is out of scope here).  Arrays are length-`dim`
C arrays, modelled as lists read with `getD`. -/
def verifyParameterCheck (sizeA perm outerSizeA outerSizeB : List Int)
    (dim : Int) : Option HpttError :=
  if dim < 1 then some HpttError.InvalidShape
  else if ¬ (perm.length = dim.toNat ∧
      ∀ v, v < dim.toNat → (v : Int) ∈ perm) then some HpttError.InvalidShape
  else if ∃ k, k < dim.toNat ∧ outerSizeA.getD k 0 < sizeA.getD k 0 then
    some HpttError.InvalidShape
  else if ∃ k, k < dim.toNat ∧
      outerSizeB.getD k 0 < sizeA.getD (perm.getD k 0).toNat 0 then
    some HpttError.InvalidShape
  else none

/-- What a caller observes from plan creation. -/
inductive CreateOutcome where
  | planProduced
  | processTerminated
  | nullHandle
  | invalidArgument
deriving DecidableEq

/-- Outcome of the `Transpose` constructor (src/src/hptt.h:93-134): it
runs `verifyParameter` and then proceeds unconditionally, so a detected
violation acts only through `HPTT_ERROR_INFO` — process termination under
`DEBUG`, nothing otherwise. -/
def createPlanOutcome (debug : Bool)
    (sizeA perm outerSizeA outerSizeB : List Int) (dim : Int) :
    CreateOutcome :=
  match verifyParameterCheck sizeA perm outerSizeA outerSizeB dim with
  | some _ =>
    match errorInfoEffect debug with
    | .printAndExitProcess => .processTerminated
    | .noop => .planProduced
  | none => .planProduced

/-- C2 counterexample: the input `dim = 0` (with empty arrays) violates
`d ≥ 1`, yet in a non-`DEBUG` build plan creation returns a usable plan —
neither a null handle nor a method-level InvalidArgument. -/
theorem C2_counterexample :
    (0 : Int) < 1 ∧
    createPlanOutcome false [] [] [] [] 0 = CreateOutcome.planProduced ∧
    createPlanOutcome false [] [] [] [] 0 ≠ CreateOutcome.nullHandle ∧
    createPlanOutcome false [] [] [] [] 0
      ≠ CreateOutcome.invalidArgument := by
  refine ⟨by decide, ?_, ?_, ?_⟩ <;> decide

/-- C2 (amended): inputs with `dim < 1`, a non-permutation `perm`, or an
outer size below the matching logical size are detected as InvalidShape,
but the only rejection mechanism is `HPTT_ERROR_INFO`: in a `DEBUG` build
the process is terminated, in a release build the macro expands to nothing
and a usable plan is produced; no null handle and no method-level
InvalidArgument is ever returned. -/
theorem C2_invalid_input_handling
    (sizeA perm outerSizeA outerSizeB : List Int) (dim : Int)
    (hbad : dim < 1 ∨
      ¬ (perm.length = dim.toNat ∧
        ∀ v, v < dim.toNat → (v : Int) ∈ perm) ∨
      (∃ k, k < dim.toNat ∧ outerSizeA.getD k 0 < sizeA.getD k 0) ∨
      (∃ k, k < dim.toNat ∧
        outerSizeB.getD k 0 < sizeA.getD (perm.getD k 0).toNat 0)) :
    verifyParameterCheck sizeA perm outerSizeA outerSizeB dim
        = some HpttError.InvalidShape ∧
    createPlanOutcome true sizeA perm outerSizeA outerSizeB dim
        = CreateOutcome.processTerminated ∧
    createPlanOutcome false sizeA perm outerSizeA outerSizeB dim
        = CreateOutcome.planProduced ∧
    (∀ debug, createPlanOutcome debug sizeA perm outerSizeA outerSizeB dim
        ≠ CreateOutcome.nullHandle ∧
      createPlanOutcome debug sizeA perm outerSizeA outerSizeB dim
        ≠ CreateOutcome.invalidArgument) := by
  have hchk : verifyParameterCheck sizeA perm outerSizeA outerSizeB dim
      = some HpttError.InvalidShape := by
    unfold verifyParameterCheck
    by_cases h1 : dim < 1
    · rw [if_pos h1]
    · rw [if_neg h1]
      by_cases h2 : ¬ (perm.length = dim.toNat ∧
          ∀ v, v < dim.toNat → (v : Int) ∈ perm)
      · rw [if_pos h2]
      · rw [if_neg h2]
        by_cases h3 : ∃ k, k < dim.toNat ∧
            outerSizeA.getD k 0 < sizeA.getD k 0
        · rw [if_pos h3]
        · rw [if_neg h3]
          by_cases h4 : ∃ k, k < dim.toNat ∧
              outerSizeB.getD k 0 < sizeA.getD (perm.getD k 0).toNat 0
          · rw [if_pos h4]
          · exfalso
            rcases hbad with hb | hb | hb | hb
            · exact h1 hb
            · exact h2 hb
            · exact h3 hb
            · exact h4 hb
  refine ⟨hchk, ?_, ?_, ?_⟩
  · unfold createPlanOutcome
    rw [hchk]
    rfl
  · unfold createPlanOutcome
    rw [hchk]
    rfl
  · intro debug
    unfold createPlanOutcome
    rw [hchk]
    cases debug <;> exact ⟨by decide, by decide⟩

/-- Witness for the amended C2 at a concrete input: `dim = 0`. -/
theorem C2_witness :
    verifyParameterCheck [] [] [] [] 0 = some HpttError.InvalidShape ∧
    createPlanOutcome true [] [] [] [] 0
        = CreateOutcome.processTerminated ∧
    createPlanOutcome false [] [] [] [] 0 = CreateOutcome.planProduced ∧
    (∀ debug, createPlanOutcome debug [] [] [] [] 0
        ≠ CreateOutcome.nullHandle ∧
      createPlanOutcome debug [] [] [] [] 0
        ≠ CreateOutcome.invalidArgument) :=
  C2_invalid_input_handling [] [] [] [] 0 (Or.inl (by decide))

end Hptt
